import Mathlib

/-!
Shallow embedding of the markdown partner-profile pipeline implemented in
`src/app.py`: document parsing (`parse_content`), content classification
(`is_mermaid`, `is_markdown_table`, the dispatch of `render_value`), table
extraction (`md_table_to_records`), item extraction (`extract_items`) and the
batch aggregation loop of `show_mapping_page`.

Text is modelled as `String`, processed as `List Char`.  Line handling mirrors
Python's newline splitting on `'\n'`; whitespace is the ASCII part of Python's
`\s` class.  Python dicts are modelled as association lists where assigning to
an existing key updates it in place (`dinsert`), which preserves both the
last-wins value semantics and the first-insertion iteration order.
-/

/-- ASCII whitespace as matched by Python's `\s` and stripped by `str.strip`. -/
def pws (c : Char) : Bool :=
  c = ' ' || c = '\t' || c = '\n' || c = '\r' || c = '\x0b' || c = '\x0c'

/-- Drop trailing characters satisfying `pws`. -/
def trimTrailing : List Char → List Char
  | [] => []
  | c :: cs =>
    match trimTrailing cs with
    | [] => if pws c then [] else [c]
    | d :: ds => c :: d :: ds

/-- Python `str.strip` on a character list. -/
def pstripL (l : List Char) : List Char := trimTrailing (l.dropWhile pws)

/-- Python `str.strip` on a string. -/
def pstrip (s : String) : String := String.mk (pstripL s.toList)

/-- Split a character list at every occurrence of `sep` (like `str.split(sep)`
for a one-character separator: `n` separators yield `n + 1` pieces). -/
def splitChar (sep : Char) : List Char → List (List Char)
  | [] => [[]]
  | c :: cs =>
    if c = sep then [] :: splitChar sep cs
    else
      match splitChar sep cs with
      | [] => [[c]]
      | h :: t => (c :: h) :: t

/-- The physical lines of a text, split at `'\n'`. -/
def linesOf (s : String) : List (List Char) := splitChar '\n' s.toList

/-- A line consisting only of whitespace (or empty). -/
def blankL (l : List Char) : Bool := l.all pws

/-- Boolean list-prefix test. -/
def listIsPre : List Char → List Char → Bool
  | [], _ => true
  | _ :: _, [] => false
  | a :: as, b :: bs => a = b && listIsPre as bs

/-- Boolean substring test (used for Python's `in` on strings). -/
def hasSub (nd : List Char) : List Char → Bool
  | [] => nd.isEmpty
  | c :: cs => listIsPre nd (c :: cs) || hasSub nd cs

/-- Rejoin lines with `'\n'` (inverse of `splitChar '\n'`). -/
def joinNL : List (List Char) → List Char
  | [] => []
  | [x] => x
  | x :: y :: r => x ++ '\n' :: joinNL (y :: r)

/-! ### Python dict as an association list -/

/-- Python dict assignment `d[k] = v`: update the first entry with key `k` in
place, else append a new entry at the end. -/
def dinsert {α : Type} : List (String × α) → String → α → List (String × α)
  | [], k, v => [(k, v)]
  | (k', v') :: r, k, v =>
    if k' = k then (k', v) :: r else (k', v') :: dinsert r k v

/-- Python dict lookup `d.get(k)`. -/
def alookup {α : Type} (k : String) : List (String × α) → Option α
  | [] => none
  | (k', v) :: r => if k = k' then some v else alookup k r

/-- Build a dict from an ordered list of key/value assignments. -/
def buildDict {α : Type} (ps : List (String × α)) : List (String × α) :=
  ps.foldl (fun acc p => dinsert acc p.1 p.2) []

/-! ### `parse_content` — partner name

`re.search(r"(?m)^#\s*パートナー名\s*$", text)`: a match starts at a line whose
first character is `#`; `\s*` may cross line breaks, so either the rest of that
line is `ws* パートナー名 ws*`, or the rest of that line is all whitespace and
the first following non-blank line is `ws* パートナー名 ws*`.  The partner name
is the first non-blank line after the matched heading, stripped. -/

/-- The literal `パートナー名`. -/
def litPN : List Char := "パートナー名".toList

/-- Does a character sequence match `\s*パートナー名\s*` to its end? -/
def wsLitWs (l : List Char) : Bool :=
  let l1 := l.dropWhile pws
  listIsPre litPN l1 && (l1.drop litPN.length).all pws

/-- Skip leading blank lines; return the first non-blank line and the rest. -/
def skipBlanksFind : List (List Char) → Option (List Char × List (List Char))
  | [] => none
  | l :: rest => if blankL l then skipBlanksFind rest else some (l, rest)

/-- Scan for the first match of the partner-name heading pattern; on success
return the lines after the line on which the match ends. -/
def partnerScanAux : List (List Char) → Option (List (List Char))
  | [] => none
  | l :: rest =>
    if l.head? = some '#' then
      if wsLitWs l.tail then some rest
      else if l.tail.all pws then
        match skipBlanksFind rest with
        | some (v, rest') =>
          if wsLitWs v then some rest' else partnerScanAux rest
        | none => none
      else partnerScanAux rest
    else partnerScanAux rest

/-- The partner name extracted by `parse_content`: first non-blank line after
the heading match, stripped. -/
def partner_name (text : String) : Option String :=
  match partnerScanAux (linesOf text) with
  | none => none
  | some after =>
    match after.find? (fun l => !blankL l) with
    | some l => some (String.mk (pstripL l))
    | none => none

/-! ### `parse_content` — sections

`re.finditer(r"(?m)^##\s*(.+)\s*$", text)`: a match starts at a line beginning
with `##`.  If the remainder of that line contains a non-whitespace character,
the group is that remainder (stripped).  Otherwise `\s*` runs across line
breaks: the group is the first following non-blank line, or — when only
whitespace follows to the end of the text — the match succeeds with a blank
group exactly when that whitespace contains a character other than `'\n'`.
Each section body is the text strictly between the end of a match and the start
of the next one (or the end of text), stripped.  The scan is a fold over the
lines. -/

inductive HeadKind
  | content (title : List Char)
  | hblank (flag : Bool)
  | other

/-- Classify a line for the section-heading scan: `content t` for `##` lines
whose remainder has a non-whitespace character, `hblank f` for `##` lines whose
remainder is all whitespace (`f` records whether it is nonempty). -/
def headKind (l : List Char) : HeadKind :=
  match l with
  | '#' :: '#' :: u => if u.all pws then .hblank (!u.isEmpty) else .content (pstripL u)
  | _ => .other

inductive SecSt
  | noSec
  | pend (prev : Option (List Char × List (List Char))) (consumed : List (List Char))
      (flag : Bool)
  | inSec (title : List Char) (body : List (List Char))

/-- One step of the section scan.  `pend prev consumed f` means a `##` line
with blank remainder was seen and its group is still open: `prev` is the
section open before it (closed only if the pending match succeeds), `consumed`
the lines provisionally swallowed by the open `\s*`, and `f` records whether a
non-newline whitespace character has been seen inside it.  Any following
non-blank line completes the pending match as its group; if only newlines
follow to the end of text the match fails and the consumed lines fall back
into the previous section's body. -/
def secStep (st : SecSt × List (List Char × List Char)) (l : List Char) :
    SecSt × List (List Char × List Char) :=
  match st.1 with
  | .noSec =>
    match headKind l with
    | .content t => (.inSec t [], st.2)
    | .hblank f => (.pend none [l] f, st.2)
    | .other => (.noSec, st.2)
  | .pend p cons f =>
    if blankL l then (.pend p (cons ++ [l]) (f || !l.isEmpty), st.2)
    else
      match p with
      | some (t, b) => (.inSec (pstripL l) [], st.2 ++ [(t, pstripL (joinNL b))])
      | none => (.inSec (pstripL l) [], st.2)
  | .inSec t b =>
    match headKind l with
    | .content t' => (.inSec t' [], st.2 ++ [(t, pstripL (joinNL b))])
    | .hblank f => (.pend (some (t, b)) [l] f, st.2)
    | .other => (.inSec t (b ++ [l]), st.2)

/-- Close the scan at end of text. -/
def secFinish : SecSt × List (List Char × List Char) → List (List Char × List Char)
  | (.noSec, out) => out
  | (.pend p cons f, out) =>
    if f then
      (match p with
       | some (t, b) => out ++ [(t, pstripL (joinNL b))]
       | none => out) ++ [([], [])]
    else
      match p with
      | some (t, b) => out ++ [(t, pstripL (joinNL (b ++ cons)))]
      | none => out
  | (.inSec t b, out) => out ++ [(t, pstripL (joinNL b))]

/-- The ordered list of `(title, body)` pairs produced by the heading scan of
`parse_content`, before dict insertion. -/
def sectionMatches (text : String) : List (String × String) :=
  (secFinish ((linesOf text).foldl secStep (.noSec, []))).map
    (fun p => (String.mk p.1, String.mk p.2))

/-- `parse_content`: partner name and the `##` sections dict. -/
def parse_content (text : String) : Option String × List (String × String) :=
  (partner_name text, buildDict (sectionMatches text))

/-! ### `is_markdown_table`

`re.search(r"(?m)^\s*\|.*\n\s*\|[-: \t|]+\n", text)`: a line (terminated by a
newline) whose first non-whitespace character is a pipe, followed — possibly
after whole-whitespace lines — by a newline-terminated line consisting of
whitespace, a pipe, and then one or more characters from `[-: \t|]` to the end
of the line. -/

/-- Characters allowed after the pipe of the detection separator line. -/
def sepChar (c : Char) : Bool :=
  c = '-' || c = ':' || c = ' ' || c = '\t' || c = '|'

/-- Line matching `\s*\|[-: \t|]+` to its end. -/
def isSepLineT (l : List Char) : Bool :=
  match l.dropWhile pws with
  | '|' :: r => !r.isEmpty && r.all sepChar
  | _ => false

/-- Line matching `\s*\|.*`. -/
def isHeaderLineT (l : List Char) : Bool :=
  match l.dropWhile pws with
  | '|' :: _ => true
  | _ => false

/-- After the header line: skip whole-whitespace lines, then require a
separator line that is itself newline-terminated (has a following line). -/
def sepAfterBlanks : List (List Char) → Bool
  | [] => false
  | l :: rest =>
    if blankL l then sepAfterBlanks rest
    else isSepLineT l && !rest.isEmpty

/-- Scan all lines for the header/separator adjacency. -/
def tableScanAux : List (List Char) → Bool
  | [] => false
  | l :: rest => (isHeaderLineT l && sepAfterBlanks rest) || tableScanAux rest

/-- `is_markdown_table` from `src/app.py`. -/
def is_markdown_table (text : String) : Bool :=
  tableScanAux (linesOf text)

/-! ### `md_table_to_records`

Works on the non-blank stripped lines.  The extraction separator pattern is
`^\s*\|?\s*[-: ]+\s*(\|\s*[-: ]+\s*)+\|?$` matched with `re.match`.  Splitting
the line on `'|'` gives pieces; each piece strictly between two pipes must
match `\s*[-: ]+\s*`, the piece before the first pipe is either all whitespace
(consumed by the leading optional pipe) or such a cell, the piece after the
last pipe is either empty (trailing optional pipe) or such a cell, and at least
one pipe must remain for the mandatory group. -/

/-- Characters of the `[-: ]` class. -/
def cellChar (c : Char) : Bool := c = '-' || c = ':' || c = ' '

/-- Piece matching `\s*[-: ]+\s*` entirely. -/
def validCell (l : List Char) : Bool :=
  l.all (fun c => pws c || c = '-' || c = ':') &&
    (let core := pstripL l
     if core.isEmpty then l.contains ' ' else core.all cellChar)

/-- `re.match` of the extraction separator pattern against a whole line. -/
def md_sep_match (l : List Char) : Bool :=
  let S := splitChar '|' l
  let n := S.length
  match S.head?, S.getLast? with
  | some s0, some sl =>
    let mids := (S.drop 1).dropLast
    decide (2 ≤ n) && mids.all validCell &&
      ((validCell s0 && validCell sl) ||
       (blankL s0 && validCell sl && decide (3 ≤ n)) ||
       (validCell s0 && sl.isEmpty && decide (3 ≤ n)) ||
       (blankL s0 && sl.isEmpty && decide (4 ≤ n)))
  | _, _ => false

/-- Does a line contain a pipe? -/
def hasPipe (l : List Char) : Bool := l.contains '|'

/-- The non-blank stripped lines used by `md_table_to_records`. -/
def mdLines (text : String) : List (List Char) :=
  ((linesOf text).map pstripL).filter (fun l => !l.isEmpty)

/-- Find the first adjacent pair (pipe-containing line, separator line); return
that header line and the lines after the separator. -/
def findHeader : List (List Char) → Option (List Char × List (List Char))
  | [] => none
  | [_] => none
  | a :: b :: rest =>
    if hasPipe a && md_sep_match b then some (a, rest)
    else findHeader (b :: rest)

/-- `split_row`: strip, drop one leading and one trailing pipe, split on
pipes, strip each cell. -/
def split_row (l : List Char) : List (List Char) :=
  let r := pstripL l
  let r := match r with
    | '|' :: t => t
    | _ => r
  let r := if r.getLast? = some '|' then r.dropLast else r
  (splitChar '|' r).map pstripL

/-- Right-pad a row with empty cells up to the header length (no-op when the
row is at least as long). -/
def padCols (hs cs : List (List Char)) : List (List Char) :=
  cs ++ List.replicate (hs.length - cs.length) []

/-- `zip(headers, cols)` after padding, as string pairs; `zip` drops the cells
beyond the header length. -/
def pairRow (hs cs : List (List Char)) : List (String × String) :=
  (hs.zip (padCols hs cs)).map (fun p => (String.mk p.1, String.mk p.2))

/-- `md_table_to_records` from `src/app.py`; `none` models Python's `None`.
Each record is `dict(zip(headers, cols))`. -/
def md_table_to_records (text : String) : Option (List (List (String × String))) :=
  match findHeader (mdLines text) with
  | none => none
  | some (hl, dataLines) =>
    let headers := split_row hl
    some (dataLines.filterMap (fun dl =>
      if hasPipe dl then some (buildDict (pairRow headers (split_row dl))) else none))

/-! ### `extract_items` -/

/-- The character set stripped from the front of a bullet line, `"*- "`. -/
def bulChar (c : Char) : Bool := c = '*' || c = '-' || c = ' '

/-- `ln.startswith("*") or ln.startswith("-")`. -/
def startsBul (l : List Char) : Bool :=
  match l with
  | '*' :: _ => true
  | '-' :: _ => true
  | _ => false

/-- Convert one non-blank stripped line to its emitted items. -/
def procLine (l : List Char) : List String :=
  if startsBul l then [String.mk (pstripL (l.dropWhile bulChar))]
  else if l.contains ',' then
    ((splitChar ',' l).map pstripL).filterMap
      (fun p => if p.isEmpty then none else some (String.mk p))
  else [String.mk l]

/-- `extract_items` from `src/app.py`: an accumulator loop over the non-blank
stripped lines. -/
def extract_items (text : String) : List String :=
  if text = "" then []
  else
    (((linesOf text).map pstripL).filter (fun l => !l.isEmpty)).foldl
      (fun acc l => acc ++ procLine l) []

/-! ### `is_mermaid` and the `render_value` classification chain -/

/-- The fence marker searched by `is_mermaid`. -/
def mermaidFence : List Char := "```mermaid".toList

/-- Keyword set checked against the first stripped line. -/
def kwList : List (List Char) :=
  ["graph".toList, "sequenceDiagram".toList, "flowchart".toList,
   "classDiagram".toList, "stateDiagram".toList]

/-- `is_mermaid` from `src/app.py`. -/
def is_mermaid (text : String) : Bool :=
  if text = "" then false
  else if hasSub mermaidFence text.toList then true
  else
    let st := pstripL text.toList
    let first := if st.isEmpty then [] else (splitChar '\n' st).headD []
    kwList.any (fun k => listIsPre k first)

/-- The `lines and all(...)` bullet-list test of `render_value`. -/
def bulletLike (text : String) : Bool :=
  let ls := (linesOf text).filter (fun l => !(pstripL l).isEmpty)
  !ls.isEmpty && ls.all (fun l => startsBul (pstripL l))

/-- Did `md_table_to_records` produce a non-empty (truthy) record list? -/
def recordsFlag (text : String) : Bool :=
  match md_table_to_records text with
  | some (_ :: _) => true
  | _ => false

inductive ContentKind
  | diagram
  | table
  | bulletList
  | freeText
deriving DecidableEq, Repr

/-- The dispatch order of `render_value`: mermaid first, then the empty
value, then the table branch (taken only when `is_markdown_table` holds and
the extracted records are truthy), then the bullet-list test, else free
text. -/
def classify (value : String) : ContentKind :=
  if is_mermaid value then .diagram
  else if value = "" then .freeText
  else if is_markdown_table value && recordsFlag value then .table
  else if bulletLike value then .bulletList
  else .freeText

/-! ### The aggregation loop of `show_mapping_page`

A document reference is a file name plus the result of reading it; `none`
models a read that raises (`except Exception: continue`). -/

structure DocF where
  name : String
  content : Option String

/-- The fixed placeholder `(名前不明)`. -/
def unknownName : String := "(名前不明)"

/-- `name = pname or "(名前不明)"` (Python truthiness: the empty string also
falls back). -/
def nameOf (txt : String) : String :=
  match (parse_content txt).1 with
  | some n => if n = "" then unknownName else n
  | none => unknownName

/-- `rlevel = secs.get("リレーションレベル", "-")`. -/
def rlevelOf (txt : String) : String :=
  match alookup "リレーションレベル" (parse_content txt).2 with
  | some b => b
  | none => "-"

/-- `renkei_txt = secs.get("連係領域", "")`. -/
def renkeiOf (txt : String) : String :=
  match alookup "連係領域" (parse_content txt).2 with
  | some b => b
  | none => ""

/-- `label = f"{name}({rlevel})"`. -/
def labelOf (txt : String) : String :=
  nameOf txt ++ "(" ++ rlevelOf txt ++ ")"

/-- Append a value to the list stored under the first matching key. -/
def appendAt {α : Type} : List (String × List α) → String → α → List (String × List α)
  | [], _, _ => []
  | (k', L) :: r, k, v =>
    if k' = k then (k', L ++ [v]) :: r else (k', L) :: appendAt r k v

abbrev MapIdx := List (String × List (String × String))

/-- `mapping = {m: [] for m in master_list}`. -/
def initMap (master : List String) : MapIdx :=
  master.map (fun m => (m, []))

/-- Body of `for it in items`: append on a master hit and raise the `matched`
flag. -/
def innerLoop (master : List String) (label nm : String)
    (st : MapIdx × Bool) (it : String) : MapIdx × Bool :=
  if master.contains it then (appendAt st.1 it (label, nm), true) else st

/-- Process one document of the batch. -/
def buildStep (master : List String) (st : MapIdx × List (String × String))
    (p : DocF) : MapIdx × List (String × String) :=
  match p.content with
  | none => st
  | some txt =>
    let label := labelOf txt
    let items := extract_items (renkeiOf txt)
    let r := items.foldl (innerLoop master label p.name) (st.1, false)
    (r.1, if r.2 then st.2 else st.2 ++ [(label, p.name)])

/-- The aggregation loop of `show_mapping_page` over a batch of documents:
the per-domain mapping and the `others` (uncategorized) list. -/
def buildMapping (files : List DocF) (master : List String) :
    MapIdx × List (String × String) :=
  files.foldl (buildStep master) (initMap master, [])

/-! ## Helper lemmas -/

theorem trimTrailing_nil_iff (l : List Char) : trimTrailing l = [] ↔ l.all pws = true := by
  induction l with
  | nil => simp [trimTrailing]
  | cons c cs ih =>
    simp only [List.all_cons, Bool.and_eq_true]
    unfold trimTrailing
    cases h : trimTrailing cs with
    | nil =>
      have hcs : cs.all pws = true := ih.mp h
      by_cases hc : pws c = true <;> simp [hc, hcs]
    | cons d ds =>
      have hcs : ¬ cs.all pws = true := fun hh => by
        rw [← ih] at hh
        rw [h] at hh
        cases hh
      constructor
      · intro hcon; cases hcon
      · rintro ⟨-, hall⟩
        exact absurd hall hcs

theorem pstripL_nil_iff (l : List Char) : pstripL l = [] ↔ l.all pws = true := by
  unfold pstripL
  rw [trimTrailing_nil_iff]
  constructor
  · intro h
    have := List.takeWhile_append_dropWhile (p := pws) (l := l)
    rw [← this, List.all_append, h, Bool.and_true]
    exact List.all_eq_true.mpr (fun x hx => List.mem_takeWhile_imp hx)
  · intro h
    exact List.all_eq_true.mpr
      (fun x hx => List.all_eq_true.mp h x (List.dropWhile_sublist pws |>.mem hx))

theorem trimTrailing_cons_of_not_ws (c : Char) (r : List Char) (hc : ¬ pws c = true) :
    ∃ t, trimTrailing (c :: r) = c :: t := by
  unfold trimTrailing
  cases h : trimTrailing r with
  | nil => exact ⟨[], by simp [hc]⟩
  | cons d ds => exact ⟨d :: ds, rfl⟩

theorem pstripL_head (l : List Char) (c : Char) (r : List Char)
    (h : l.dropWhile pws = c :: r) (hc : ¬ pws c = true) :
    ∃ t, pstripL l = c :: t := by
  unfold pstripL
  rw [h]
  exact trimTrailing_cons_of_not_ws c r hc

/-! ### Dict lemmas -/

theorem alookup_dinsert {α : Type} (acc : List (String × α)) (t k : String) (v : α) :
    alookup t (dinsert acc k v) = if t = k then some v else alookup t acc := by
  induction acc with
  | nil =>
    by_cases h : t = k <;> simp [dinsert, alookup, h]
  | cons p r ih =>
    obtain ⟨k', v'⟩ := p
    by_cases hk : k' = k
    · subst hk
      by_cases ht : t = k' <;> simp [dinsert, alookup, ht]
    · by_cases ht : t = k'
      · subst ht
        simp [dinsert, alookup, hk]
      · simp [dinsert, alookup, hk, ht, ih]

theorem keys_dinsert {α : Type} (acc : List (String × α)) (k : String) (v : α) :
    (dinsert acc k v).map Prod.fst =
      if k ∈ acc.map Prod.fst then acc.map Prod.fst else acc.map Prod.fst ++ [k] := by
  induction acc with
  | nil => simp [dinsert]
  | cons p r ih =>
    obtain ⟨k', v'⟩ := p
    by_cases hk : k' = k
    · subst hk; simp [dinsert]
    · have hk' : ¬ k = k' := fun h => hk h.symm
      by_cases hmem : k ∈ r.map Prod.fst <;>
        simp [dinsert, hk, hk', hmem, ih]

theorem find?_concat {α : Type} (q : α → Bool) (l : List α) (p : α) :
    (l ++ [p]).find? q =
      match l.find? q with
      | some x => some x
      | none => if q p then some p else none := by
  rw [List.find?_append]
  cases h : l.find? q with
  | some x => rfl
  | none =>
    by_cases hq : q p = true <;> simp [List.find?, hq, Option.or]

theorem alookup_buildDict_aux {α : Type} (t : String) (ms : List (String × α)) :
    ∀ acc : List (String × α),
      alookup t (ms.foldl (fun a p => dinsert a p.1 p.2) acc) =
        match ms.reverse.find? (fun p => decide (p.1 = t)) with
        | some p => some p.2
        | none => alookup t acc := by
  induction ms with
  | nil => intro acc; rfl
  | cons p ms' ih =>
    intro acc
    simp only [List.foldl_cons, List.reverse_cons]
    rw [ih, find?_concat]
    cases h : ms'.reverse.find? (fun p => decide (p.1 = t)) with
    | some q => simp
    | none =>
      simp only
      by_cases ht : p.1 = t
      · simp [ht, alookup_dinsert]
      · have : ¬ t = p.1 := fun h => ht h.symm
        simp [ht, this, alookup_dinsert]

theorem alookup_buildDict {α : Type} (t : String) (ms : List (String × α)) :
    alookup t (buildDict ms) =
      (ms.reverse.find? (fun p => decide (p.1 = t))).map Prod.snd := by
  unfold buildDict
  rw [alookup_buildDict_aux]
  cases h : ms.reverse.find? (fun p => decide (p.1 = t)) <;> simp [alookup]

/-- First-occurrence deduplication of a key list, preserving order. -/
def dedupFirst (ks : List String) : List String :=
  ks.foldl (fun acc k => if k ∈ acc then acc else acc ++ [k]) []

theorem keys_buildDict_aux {α : Type} (ms : List (String × α)) :
    ∀ acc : List (String × α),
      (ms.foldl (fun a p => dinsert a p.1 p.2) acc).map Prod.fst =
        ms.foldl (fun ks p => if p.1 ∈ ks then ks else ks ++ [p.1]) (acc.map Prod.fst) := by
  induction ms with
  | nil => intro acc; rfl
  | cons p ms' ih =>
    intro acc
    simp only [List.foldl_cons]
    rw [ih, keys_dinsert]

theorem keys_buildDict {α : Type} (ms : List (String × α)) :
    (buildDict ms).map Prod.fst = dedupFirst (ms.map Prod.fst) := by
  unfold buildDict dedupFirst
  rw [keys_buildDict_aux, List.foldl_map]
  simp only [List.map_nil]

theorem dedupFirst_nodup_aux (ks : List String) :
    ∀ acc : List String, acc.Nodup →
      (ks.foldl (fun a k => if k ∈ a then a else a ++ [k]) acc).Nodup := by
  induction ks with
  | nil => intro acc h; exact h
  | cons k ks' ih =>
    intro acc h
    simp only [List.foldl_cons]
    by_cases hm : k ∈ acc
    · simp only [if_pos hm]; exact ih acc h
    · simp only [if_neg hm]
      refine ih _ (List.Nodup.append h (List.nodup_singleton k) ?_)
      intro a ha hb
      rw [List.mem_singleton] at hb
      exact hm (hb ▸ ha)

theorem dedupFirst_nodup (ks : List String) : (dedupFirst ks).Nodup :=
  dedupFirst_nodup_aux ks [] List.nodup_nil

/-! ### Aggregation lemmas -/

theorem alookup_appendAt_self {α : Type} (mp : List (String × List α)) (k : String)
    (v : α) (L : List α) (h : alookup k mp = some L) :
    alookup k (appendAt mp k v) = some (L ++ [v]) := by
  induction mp with
  | nil => cases h
  | cons p r ih =>
    obtain ⟨k', L'⟩ := p
    by_cases hk : k' = k
    · subst hk
      simp only [alookup, if_pos rfl] at h
      cases h
      simp [appendAt, alookup]
    · have hk2 : ¬ k = k' := fun hh => hk hh.symm
      simp only [alookup, if_neg hk2] at h
      simp [appendAt, alookup, hk, hk2, ih h]

theorem alookup_appendAt_other {α : Type} (mp : List (String × List α)) (k k' : String)
    (v : α) (h : ¬ k = k') :
    alookup k (appendAt mp k' v) = alookup k mp := by
  induction mp with
  | nil => simp [appendAt]
  | cons p r ih =>
    obtain ⟨k'', L''⟩ := p
    by_cases hk : k'' = k'
    · subst hk
      simp [appendAt, alookup, h, ih]
    · simp only [appendAt, if_neg hk]
      by_cases ht : k = k'' <;> simp [alookup, ht, ih]

theorem alookup_initMap (master : List String) (m : String) (h : m ∈ master) :
    alookup m (initMap master) = some [] := by
  induction master with
  | nil => cases h
  | cons x xs ih =>
    by_cases hm : m = x
    · simp [initMap, alookup, hm]
    · have : m ∈ xs := by
        cases h with
        | head => exact absurd rfl hm
        | tail _ h' => exact h'
      simpa [initMap, alookup, hm] using ih this

theorem innerLoop_fst (master : List String) (label nm : String) (m : String)
    (hm : m ∈ master) :
    ∀ (items : List String) (mp : MapIdx) (b : Bool) (L : List (String × String)),
      alookup m mp = some L →
      alookup m ((items.foldl (innerLoop master label nm) (mp, b)).1) =
        some (L ++ (items.filter (fun it => decide (it = m))).map
          (fun _ => (label, nm))) := by
  intro items
  induction items with
  | nil => intro mp b L h; simpa using h
  | cons it its ih =>
    intro mp b L h
    simp only [List.foldl_cons]
    by_cases hc : master.contains it = true
    · have hstep : innerLoop master label nm (mp, b) it =
          (appendAt mp it (label, nm), true) := by
        unfold innerLoop
        rw [if_pos hc]
      rw [hstep]
      by_cases him : it = m
      · subst him
        have h2 : alookup it (appendAt mp it (label, nm)) = some (L ++ [(label, nm)]) :=
          alookup_appendAt_self mp it (label, nm) L h
        rw [ih _ _ _ h2]
        simp [List.filter]
      · have h2 : alookup m (appendAt mp it (label, nm)) = alookup m mp :=
          alookup_appendAt_other mp m it (label, nm) (fun hh => him hh.symm)
        rw [ih _ _ _ (h2.trans h)]
        simp [List.filter, him]
    · have him : ¬ it = m := fun hh => by
        rw [hh] at hc
        exact hc (List.elem_iff.mpr hm)
      have hstep : innerLoop master label nm (mp, b) it = (mp, b) := by
        unfold innerLoop
        rw [if_neg hc]
      rw [hstep, ih _ _ _ h]
      simp [List.filter, him]

theorem innerLoop_snd (master : List String) (label nm : String) :
    ∀ (items : List String) (mp : MapIdx) (b : Bool),
      (items.foldl (innerLoop master label nm) (mp, b)).2 =
        (b || items.any (fun it => master.contains it)) := by
  intro items
  induction items with
  | nil => intro mp b; simp
  | cons it its ih =>
    intro mp b
    simp only [List.foldl_cons, List.any_cons]
    by_cases hc : master.contains it = true
    · have hstep : innerLoop master label nm (mp, b) it =
          (appendAt mp it (label, nm), true) := by
        unfold innerLoop
        rw [if_pos hc]
      rw [hstep, ih]
      simp [List.elem_iff.mp hc]
    · have hstep : innerLoop master label nm (mp, b) it = (mp, b) := by
        unfold innerLoop
        rw [if_neg hc]
      have hnm : it ∉ master := fun hh => hc (List.elem_iff.mpr hh)
      rw [hstep, ih]
      simp [hnm]

/-- The entries one document contributes to the list of master domain `m`:
one `(label, file name)` pair per occurrence of `m` among its extracted
items.  An unreadable document contributes nothing. -/
def docContrib (_master : List String) (m : String) (p : DocF) :
    List (String × String) :=
  match p.content with
  | none => []
  | some txt =>
    ((extract_items (renkeiOf txt)).filter (fun it => decide (it = m))).map
      (fun _ => (labelOf txt, p.name))

/-- The entry one document contributes to the uncategorized list: its
`(label, file name)` pair exactly when it is readable and none of its
extracted items occurs in the master list. -/
def uncatOf (master : List String) (p : DocF) : Option (String × String) :=
  match p.content with
  | none => none
  | some txt =>
    if (extract_items (renkeiOf txt)).any (fun it => master.contains it) then none
    else some (labelOf txt, p.name)

theorem buildStep_fst (master : List String) (m : String) (hm : m ∈ master)
    (p : DocF) (st : MapIdx × List (String × String)) (L : List (String × String))
    (h : alookup m st.1 = some L) :
    alookup m (buildStep master st p).1 = some (L ++ docContrib master m p) := by
  cases hc : p.content with
  | none => simp [buildStep, docContrib, hc, h]
  | some txt =>
    simp only [buildStep, docContrib, hc]
    exact innerLoop_fst master (labelOf txt) p.name m hm _ st.1 false L h

theorem buildStep_snd (master : List String) (p : DocF)
    (st : MapIdx × List (String × String)) :
    (buildStep master st p).2 =
      st.2 ++ (match uncatOf master p with
               | some e => [e]
               | none => []) := by
  cases hc : p.content with
  | none => simp [buildStep, uncatOf, hc]
  | some txt =>
    simp only [buildStep, uncatOf, hc]
    rw [innerLoop_snd]
    by_cases ha : (extract_items (renkeiOf txt)).any (fun it => master.contains it) = true
    · have hex : ∃ x ∈ extract_items (renkeiOf txt), x ∈ master := by
        obtain ⟨x, hx, hpx⟩ := List.any_eq_true.mp ha
        exact ⟨x, hx, List.elem_iff.mp hpx⟩
      simp [ha, hex]
    · have hex : ¬ ∃ x ∈ extract_items (renkeiOf txt), x ∈ master := by
        rintro ⟨x, hx, hpx⟩
        exact ha (List.any_eq_true.mpr ⟨x, hx, List.elem_iff.mpr hpx⟩)
      have hfa : (extract_items (renkeiOf txt)).any (fun it => master.contains it) = false := by
        cases hcc : (extract_items (renkeiOf txt)).any (fun it => master.contains it)
        · rfl
        · exact absurd hcc ha
      simp [hfa, hex]

theorem foldl_buildStep_fst (master : List String) (m : String) (hm : m ∈ master) :
    ∀ (files : List DocF) (st : MapIdx × List (String × String))
      (L : List (String × String)), alookup m st.1 = some L →
      alookup m (files.foldl (buildStep master) st).1 =
        some (L ++ files.flatMap (docContrib master m)) := by
  intro files
  induction files with
  | nil => intro st L h; simpa using h
  | cons p ps ih =>
    intro st L h
    simp only [List.foldl_cons, List.flatMap_cons]
    rw [ih _ _ (buildStep_fst master m hm p st L h)]
    simp

theorem foldl_buildStep_snd (master : List String) :
    ∀ (files : List DocF) (st : MapIdx × List (String × String)),
      (files.foldl (buildStep master) st).2 =
        st.2 ++ files.filterMap (uncatOf master) := by
  intro files
  induction files with
  | nil => intro st; simp
  | cons p ps ih =>
    intro st
    simp only [List.foldl_cons, List.filterMap_cons]
    rw [ih, buildStep_snd]
    cases uncatOf master p <;> simp

/-! ## Claims -/

theorem buildMapping_fst_eq (files : List DocF) (master : List String)
    (m : String) (hm : m ∈ master) :
    alookup m (buildMapping files master).1 =
      some (files.flatMap (docContrib master m)) := by
  unfold buildMapping
  have h0 : alookup m (initMap master, ([] : List (String × String))).1 = some [] :=
    alookup_initMap master m hm
  simpa using foldl_buildStep_fst master m hm files _ [] h0

theorem buildMapping_snd_eq (files : List DocF) (master : List String) :
    (buildMapping files master).2 = files.filterMap (uncatOf master) := by
  unfold buildMapping
  simpa using foldl_buildStep_snd master files _

/-- C1: for every document batch and master domain list, the mapping built by
the aggregation loop has an entry for every master domain, holding exactly the
concatenation, in document-processing order, of each document's contributions
to that domain (empty when no document matched it, never omitted); and the
uncategorized list holds exactly one entry per readable document none of whose
items matched any master domain, in processing order. -/
theorem claim1_mapping_complete (files : List DocF) (master : List String) :
    (∀ m, m ∈ master →
      alookup m (buildMapping files master).1 =
        some (files.flatMap (docContrib master m)))
    ∧ (buildMapping files master).2 = files.filterMap (uncatOf master) :=
  ⟨fun m hm => buildMapping_fst_eq files master m hm,
   buildMapping_snd_eq files master⟩

/-- Example batch used to witness `claim1_mapping_complete`. -/
def filesW : List DocF :=
  [⟨"a.md", some "# パートナー名\nAcme\n## リレーションレベル\n強化\n## 連係領域\n営業\n"⟩,
   ⟨"b.md", some "## 連係領域\nzzz\n"⟩]

theorem claim1_mapping_complete_witness :
    alookup "営業" (buildMapping filesW ["戦略", "営業"]).1 =
      some (filesW.flatMap (docContrib ["戦略", "営業"] "営業"))
    ∧ (buildMapping filesW ["戦略", "営業"]).2 =
      filesW.filterMap (uncatOf ["戦略", "営業"]) :=
  ⟨(claim1_mapping_complete filesW ["戦略", "営業"]).1 "営業" (by decide),
   (claim1_mapping_complete filesW ["戦略", "営業"]).2⟩

/-- C2: a document whose read fails contributes nothing to any domain list nor
to the uncategorized list, and the rest of the batch is processed exactly as
if it were absent — the aggregation result over any batch containing the
unreadable document equals the result over the batch without it. -/
theorem claim2_unreadable_skipped (pre post : List DocF) (master : List String)
    (nm : String) :
    buildMapping (pre ++ ⟨nm, none⟩ :: post) master =
      buildMapping (pre ++ post) master := by
  unfold buildMapping
  rw [List.foldl_append, List.foldl_append, List.foldl_cons]
  rfl

/-- C10: matched items are not deduplicated — for a readable document, domain
`m` of the master list receives the document's `(label, name)` pair once per
occurrence of `m` among the items extracted from its 連係領域 section. -/
theorem claim10_no_dedup (p : DocF) (master : List String) (m : String)
    (txt : String) (hm : m ∈ master) (hc : p.content = some txt) :
    alookup m (buildMapping [p] master).1 =
      some (List.replicate
        ((extract_items (renkeiOf txt)).filter (fun it => decide (it = m))).length
        (labelOf txt, p.name)) := by
  rw [buildMapping_fst_eq [p] master m hm]
  simp only [List.flatMap_cons, List.flatMap_nil, List.append_nil, docContrib, hc]
  congr 1
  exact List.map_const' _ _

theorem claim10_no_dedup_witness :
    alookup "営業" (buildMapping [⟨"a.md", some "## 連係領域\n営業\n営業\n"⟩] ["営業"]).1 =
      some (List.replicate
        ((extract_items (renkeiOf "## 連係領域\n営業\n営業\n")).filter
          (fun it => decide (it = "営業"))).length
        (labelOf "## 連係領域\n営業\n営業\n", "a.md")) :=
  claim10_no_dedup ⟨"a.md", some "## 連係領域\n営業\n営業\n"⟩ ["営業"] "営業"
    "## 連係領域\n営業\n営業\n" (by decide) rfl

/-! ### C3: the partner label -/

theorem partner_name_ne_empty (txt : String) (n : String)
    (h : partner_name txt = some n) : n ≠ "" := by
  unfold partner_name at h
  cases hscan : partnerScanAux (linesOf txt) with
  | none => simp [hscan] at h
  | some after =>
    simp only [hscan] at h
    cases hfind : after.find? (fun l => !blankL l) with
    | none => simp [hfind] at h
    | some l =>
      simp only [hfind] at h
      have hl : blankL l = false := by simpa using List.find?_some hfind
      have hblank : ¬ l.all pws = true := by
        intro hh
        rw [show blankL l = true from hh] at hl
        cases hl
      have hne : pstripL l ≠ [] := fun hh => hblank ((pstripL_nil_iff l).mp hh)
      cases h
      intro hh
      exact hne (congrArg String.data hh)

/-- The partner label as the amended claim words it: the parsed partner name
(or the placeholder when absent) followed by the リレーションレベル section
body in parentheses — the body whenever the section is present, even when it
is empty, and `-` exactly when the section is absent. -/
def labelSpecA (txt : String) : String :=
  (match (parse_content txt).1 with
   | some n => n
   | none => unknownName) ++ "(" ++
  (match alookup "リレーションレベル" (parse_content txt).2 with
   | some b => b
   | none => "-") ++ ")"

/-- Document whose リレーションレベル section is present but empty. -/
def emptyRelDoc : String :=
  "# パートナー名\nAcme\n## リレーションレベル\n## 連係領域\nx\n"

/-- C3 counterexample: for a document whose リレーションレベル section is
present but empty, the aggregation loop emits the label `Acme()` — the raw
empty body — and not the `Acme(-)` the claim requires, even though the
section is present and empty after trimming. -/
theorem claim3_counterexample :
    alookup "リレーションレベル" (parse_content emptyRelDoc).2 = some ""
    ∧ (buildMapping [⟨"d.md", some emptyRelDoc⟩] ["M"]).2 = [("Acme()", "d.md")]
    ∧ ("Acme()" : String) ≠ "Acme(-)" := by
  refine ⟨by decide, by decide, by decide⟩

/-- C3 amended: the label is `{name}({relationLevel})` where `name` is the
parsed partner name or the placeholder when absent, and `relationLevel` is the
リレーションレベル section body whenever the section is present — even when
that body is empty — and `-` only when the section is absent; the aggregation
loop emits exactly this label (shown here on the uncategorized path for a
single-document batch). -/
theorem claim3_amended (txt : String) :
    labelOf txt = labelSpecA txt
    ∧ (∀ (nm : String) (master : List String),
        (extract_items (renkeiOf txt)).any (fun it => master.contains it) = false →
        (buildMapping [⟨nm, some txt⟩] master).2 = [(labelSpecA txt, nm)]) := by
  have hlab : labelOf txt = labelSpecA txt := by
    unfold labelOf labelSpecA nameOf rlevelOf
    cases hp : (parse_content txt).1 with
    | none => rfl
    | some n =>
      have : ¬ n = "" := partner_name_ne_empty txt n hp
      simp [this]
  refine ⟨hlab, ?_⟩
  intro nm master hno
  rw [← hlab]
  rw [buildMapping_snd_eq]
  simp only [List.filterMap_cons, List.filterMap_nil, uncatOf, hno]
  simp

theorem claim3_amended_witness :
    (buildMapping [⟨"d.md", some emptyRelDoc⟩] ["M"]).2 =
      [(labelSpecA emptyRelDoc, "d.md")] :=
  (claim3_amended emptyRelDoc).2 "d.md" ["M"] (by decide)

/-! ### C4: duplicate section titles -/

/-- C4: the sections mapping holds at most one entry per title; its value is
the body of the last heading occurrence of that title; the key order is the
first-occurrence order of the scanned headings; and the duplicate-title
example parses to a single last-wins entry. -/
theorem claim4_last_wins :
    (∀ (text t : String),
      alookup t (parse_content text).2 =
        ((sectionMatches text).reverse.find? (fun p => decide (p.1 = t))).map Prod.snd)
    ∧ (∀ text : String,
        (parse_content text).2.map Prod.fst =
          dedupFirst ((sectionMatches text).map Prod.fst))
    ∧ (∀ text : String, ((parse_content text).2.map Prod.fst).Nodup)
    ∧ parse_content "## A\nfirst\n## A\nsecond\n" = (none, [("A", "second")]) := by
  refine ⟨?_, ?_, ?_, by decide⟩
  · intro text t
    exact alookup_buildDict t (sectionMatches text)
  · intro text
    exact keys_buildDict (sectionMatches text)
  · intro text
    rw [show (parse_content text).2 = buildDict (sectionMatches text) from rfl,
      keys_buildDict (sectionMatches text)]
    exact dedupFirst_nodup _

/-! ### C8: item extraction -/

theorem foldl_append_eq_flatMap {α β : Type} (f : α → List β) :
    ∀ (l : List α) (acc : List β),
      l.foldl (fun a x => a ++ f x) acc = acc ++ l.flatMap f := by
  intro l
  induction l with
  | nil => intro acc; simp
  | cons x xs ih => intro acc; simp [ih]

/-- C8: `extract_items` emits, in order, the items of each non-blank stripped
line: a bullet line yields exactly one item (the line with all leading `*`,
`-` and spaces removed, trimmed — not split on commas), a non-bullet line with
a comma yields its non-empty trimmed comma pieces in order, any other line is
emitted whole; empty input yields the empty list and duplicates are kept. -/
theorem claim8_extract_items :
    (∀ text : String, extract_items text =
      (((linesOf text).map pstripL).filter (fun l => !l.isEmpty)).flatMap procLine)
    ∧ (∀ l : List Char, startsBul l = true →
        procLine l = [String.mk (pstripL (l.dropWhile bulChar))])
    ∧ (∀ l : List Char, startsBul l = false → l.contains ',' = true →
        procLine l = ((splitChar ',' l).map pstripL).filterMap
          (fun p => if p.isEmpty then none else some (String.mk p)))
    ∧ (∀ l : List Char, startsBul l = false → l.contains ',' = false →
        procLine l = [String.mk l])
    ∧ extract_items "" = []
    ∧ extract_items "* x\n* y" = ["x", "y"]
    ∧ extract_items "a, b, c" = ["a", "b", "c"]
    ∧ extract_items "single line" = ["single line"]
    ∧ extract_items "* a, b" = ["a, b"]
    ∧ extract_items "x\nx" = ["x", "x"] := by
  refine ⟨?_, ?_, ?_, ?_, by decide, by decide, by decide, by decide, by decide,
    by decide⟩
  · intro text
    by_cases h : text = ""
    · subst h; decide
    · unfold extract_items
      rw [if_neg h, foldl_append_eq_flatMap]
      simp
  · intro l hb
    simp [procLine, hb]
  · intro l hb hc
    have hm : ',' ∈ l := List.elem_iff.mp hc
    simp [procLine, hb, hm]
  · intro l hb hc
    have hnm : ',' ∉ l := fun hh => by
      simp at hc
      exact hc hh
    simp [procLine, hb, hnm]

theorem claim8_extract_items_witness :
    procLine ("* a, b".toList) = [String.mk (pstripL (("* a, b".toList).dropWhile bulChar))] :=
  claim8_extract_items.2.1 ("* a, b".toList) (by decide)

/-! ### C6 and C7: table rows and headers -/

theorem filterMap_if_eq_filter_map {α β : Type} (p : α → Bool) (f : α → β) :
    ∀ l : List α,
      l.filterMap (fun x => if p x then some (f x) else none) = (l.filter p).map f := by
  intro l
  induction l with
  | nil => rfl
  | cons a t ih => by_cases h : p a <;> simp [List.filter, h, ih]

theorem map_snd_zip_take {α β : Type} :
    ∀ (l₁ : List α) (l₂ : List β),
      (l₁.zip l₂).map Prod.snd = l₂.take l₁.length := by
  intro l₁
  induction l₁ with
  | nil => intro l₂; simp
  | cons a t ih =>
    intro l₂
    cases l₂ with
    | nil => simp
    | cons b t₂ => simp [ih]

/-- The table body of the worked example. -/
def tableDoc : String := "| H1 | H2 |\n|---|---|\n| a | b |\n| c |\n"

/-- C6: after the header/separator pair is located, a data row is kept exactly
when it contains a pipe; a kept row pairs the headers positionally with the
row's cells padded on the right by empty cells up to the header length, cells
beyond the header length being dropped by the zip; the worked example yields
the two records of the claim, the short row right-padded. -/
theorem claim6_rows_padded :
    md_table_to_records tableDoc =
      some [[("H1", "a"), ("H2", "b")], [("H1", "c"), ("H2", "")]]
    ∧ (∀ (text : String) (hl : List Char) (ds : List (List Char)),
        findHeader (mdLines text) = some (hl, ds) →
        md_table_to_records text =
          some ((ds.filter hasPipe).map
            (fun dl => buildDict (pairRow (split_row hl) (split_row dl)))))
    ∧ (∀ hs cs : List (List Char), (hs.zip (padCols hs cs)).map Prod.fst = hs)
    ∧ (∀ hs cs : List (List Char),
        (hs.zip (padCols hs cs)).map Prod.snd =
          (cs ++ List.replicate (hs.length - cs.length) []).take hs.length) := by
  refine ⟨by decide, ?_, ?_, ?_⟩
  · intro text hl ds hfind
    unfold md_table_to_records
    rw [hfind]
    simp only
    rw [filterMap_if_eq_filter_map hasPipe
      (fun dl => buildDict (pairRow (split_row hl) (split_row dl)))]
  · intro hs cs
    refine List.map_fst_zip hs (padCols hs cs) ?_
    unfold padCols
    rw [List.length_append, List.length_replicate]
    omega
  · intro hs cs
    exact map_snd_zip_take hs (padCols hs cs)

theorem claim6_rows_padded_witness :
    md_table_to_records tableDoc =
      some (((["| a | b |".toList, "| c |".toList]).filter hasPipe).map
        (fun dl => buildDict (pairRow (split_row "| H1 | H2 |".toList) (split_row dl)))) :=
  claim6_rows_padded.2.1 tableDoc "| H1 | H2 |".toList
    ["| a | b |".toList, "| c |".toList] (by decide)

/-- Table whose header row repeats the column name `H`. -/
def dupHeaderDoc : String := "| H | H |\n|---|---|\n| a | b |\n"

/-- C7 counterexample: with the duplicated header `H`, the split header row
keeps both cells, but the produced record is a dict with a single `H` field
(the later cell `b` having overwritten `a`), not one field per header cell as
the claim states. -/
theorem claim7_counterexample :
    split_row "| H | H |".toList = ["H".toList, "H".toList]
    ∧ md_table_to_records dupHeaderDoc = some [[("H", "b")]]
    ∧ (split_row "| H | H |".toList).length = 2 := by
  refine ⟨by decide, by decide, by decide⟩

/-- C7 amended: duplicate header names are kept as given in the split header
row and cells are zipped positionally, but each record is then built as a
name-keyed dict, so a duplicated header name yields a single field holding the
cell of its last position; looking any name up in a record returns the value
of its last positional pair. -/
theorem claim7_dup_header_amended :
    (∀ (hs cs : List (List Char)) (k : String),
      alookup k (buildDict (pairRow hs cs)) =
        ((pairRow hs cs).reverse.find? (fun p => decide (p.1 = k))).map Prod.snd)
    ∧ split_row "| H | H |".toList = ["H".toList, "H".toList]
    ∧ alookup "H" (buildDict (pairRow (split_row "| H | H |".toList)
        (split_row "| a | b |".toList))) = some "b" := by
  refine ⟨?_, by decide, by decide⟩
  intro hs cs k
  exact alookup_buildDict k (pairRow hs cs)

/-! ### C9: partner-name nullness -/

/-- The heading line shape claimed by the specification: hash, one space, the
literal `パートナー名`, and nothing but whitespace after it on the line.  This
follows the spec's words for comparison with the code's matcher. -/
def specPartnerHeadingLine (l : List Char) : Bool :=
  match l with
  | c1 :: c2 :: r =>
    c1 = '#' && c2 = ' ' && listIsPre litPN r && (r.drop litPN.length).all pws
  | _ => false

/-- Text whose heading has no space between `#` and the label. -/
def noSpaceDoc : String := "#パートナー名\nAcme\n"

/-- C9 counterexample: no line of `noSpaceDoc` is the spec's heading
`# パートナー名` (hash, one space, label), yet the parser returns the non-null
partner name `Acme`, because the code's pattern `#\s*パートナー名\s*$` accepts
zero whitespace between the hash and the label. -/
theorem claim9_counterexample :
    (linesOf noSpaceDoc).all (fun l => !specPartnerHeadingLine l) = true
    ∧ (parse_content noSpaceDoc).1 = some "Acme" := by
  refine ⟨by decide, by decide⟩

theorem listIsPre_cons {a : Char} {as bs : List Char}
    (h : listIsPre (a :: as) bs = true) : ∃ bs', bs = a :: bs' ∧ listIsPre as bs' = true := by
  cases bs with
  | nil => cases h
  | cons b bs' =>
    simp only [listIsPre, Bool.and_eq_true] at h
    exact ⟨bs', by rw [of_decide_eq_true h.1], h.2⟩

theorem spec_heading_wsLitWs (l : List Char) (h : specPartnerHeadingLine l = true) :
    ∃ r, l = '#' :: ' ' :: r ∧ wsLitWs (' ' :: r) = true := by
  cases l with
  | nil => simp [specPartnerHeadingLine] at h
  | cons c1 l1 =>
    cases l1 with
    | nil => simp [specPartnerHeadingLine] at h
    | cons c2 r =>
      simp only [specPartnerHeadingLine, Bool.and_eq_true, decide_eq_true_eq] at h
      obtain ⟨⟨⟨h1, h2⟩, hpre⟩, hall⟩ := h
      subst h1
      subst h2
      refine ⟨r, rfl, ?_⟩
      have hr : r.dropWhile pws = r := by
        have hlit : litPN = 'パ' :: "ートナー名".toList := by decide
        rw [hlit] at hpre
        obtain ⟨r', hr', -⟩ := listIsPre_cons hpre
        rw [hr']
        rw [List.dropWhile_cons_of_neg]
        decide
      unfold wsLitWs
      simp only [List.dropWhile_cons_of_pos (show pws ' ' = true by decide), hr]
      simp [hpre, hall]

theorem skipBlanksFind_none (ls : List (List Char)) (h : skipBlanksFind ls = none) :
    ∀ l ∈ ls, blankL l = true := by
  induction ls with
  | nil => intro l hl; cases hl
  | cons x rest ih =>
    intro l hl
    unfold skipBlanksFind at h
    by_cases hb : blankL x = true
    · rw [if_pos hb] at h
      cases hl with
      | head => exact hb
      | tail _ h' => exact ih h l h'
    · rw [if_neg hb] at h
      cases h

theorem spec_heading_scan_some (ls : List (List Char))
    (h : ∃ l ∈ ls, specPartnerHeadingLine l = true) :
    partnerScanAux ls ≠ none := by
  induction ls with
  | nil =>
    obtain ⟨l, hl, -⟩ := h
    cases hl
  | cons x rest ih =>
    obtain ⟨l, hl, hspec⟩ := h
    cases hl with
    | head =>
      obtain ⟨r, hx, hws⟩ := spec_heading_wsLitWs x hspec
      subst hx
      unfold partnerScanAux
      simp [hws]
    | tail _ hmem =>
      have ihr : partnerScanAux rest ≠ none := ih ⟨l, hmem, hspec⟩
      unfold partnerScanAux
      by_cases hh : x.head? = some '#'
      · rw [if_pos hh]
        by_cases h1 : wsLitWs x.tail = true
        · simp [h1]
        · rw [if_neg h1]
          by_cases h2 : x.tail.all pws = true
          · rw [if_pos h2]
            cases hsb : skipBlanksFind rest with
            | some vp =>
              obtain ⟨v, rest'⟩ := vp
              by_cases h3 : wsLitWs v = true <;> simp [h3, ihr]
            | none =>
              have hblank : blankL l = true := skipBlanksFind_none rest hsb l hmem
              obtain ⟨r, hx, -⟩ := spec_heading_wsLitWs l hspec
              rw [hx] at hblank
              simp [blankL, pws] at hblank
          · rw [if_neg h2]
            exact fun hc => ihr hc
      · rw [if_neg hh]
        exact fun hc => ihr hc

/-- C9 amended: the heading matcher accepts `#` followed by any amount of
whitespace (possibly none, possibly spanning blank lines) before the literal
パートナー名 and only whitespace after it on its line; the partner name is
null exactly when that scan finds no match, or only blank lines follow the
match; when a non-blank line follows the match, the name is the first such
line trimmed.  Every line of the spec's exact shape `# パートナー名` is still
accepted, and the claim's positive example holds. -/
theorem claim9_amended :
    (∀ ls : List (List Char),
      (∃ l ∈ ls, specPartnerHeadingLine l = true) → partnerScanAux ls ≠ none)
    ∧ (∀ text : String,
        (parse_content text).1 = none ↔
          partnerScanAux (linesOf text) = none ∨
          ∃ after, partnerScanAux (linesOf text) = some after ∧
            ∀ l ∈ after, blankL l = true)
    ∧ (∀ (text : String) (after : List (List Char)) (l : List Char),
        partnerScanAux (linesOf text) = some after →
        after.find? (fun l => !blankL l) = some l →
        (parse_content text).1 = some (String.mk (pstripL l)))
    ∧ (parse_content "# パートナー名\n\nAcme Corp\n").1 = some "Acme Corp" := by
  refine ⟨spec_heading_scan_some, ?_, ?_, by decide⟩
  · intro text
    show partner_name text = none ↔ _
    unfold partner_name
    cases hscan : partnerScanAux (linesOf text) with
    | none => simp [hscan]
    | some after =>
      simp only [hscan]
      cases hfind : after.find? (fun l => !blankL l) with
      | none =>
        simp only [hfind]
        constructor
        · intro _
          refine Or.inr ⟨after, rfl, fun l hl => ?_⟩
          simpa using List.find?_eq_none.mp hfind l hl
        · intro _
          trivial
      | some l =>
        simp only [hfind]
        constructor
        · intro hcon
          cases hcon
        · rintro (hnone | ⟨after', hsome, hall⟩)
          · cases hnone
          · injection hsome with heq
            subst heq
            have hmem : l ∈ after := List.mem_of_find?_eq_some hfind
            have hbf : blankL l = false := by simpa using List.find?_some hfind
            rw [hall l hmem] at hbf
            cases hbf
  · intro text after l hscan hfind
    show partner_name text = _
    unfold partner_name
    simp only [hscan, hfind]

theorem claim9_amended_witness :
    (parse_content "# パートナー名\n\nAcme Corp\n").1 =
      some (String.mk (pstripL "Acme Corp".toList)) :=
  claim9_amended.2.2.1 "# パートナー名\n\nAcme Corp\n"
    ["".toList, "Acme Corp".toList, "".toList] "Acme Corp".toList
    (by decide) (by decide)

/-! ### C5: classification precedence -/

theorem isHeaderLineT_false_of_bullet (l : List Char)
    (hb : pstripL l ≠ [] → startsBul (pstripL l) = true) :
    isHeaderLineT l = false := by
  cases hd : l.dropWhile pws with
  | nil => simp [isHeaderLineT, hd]
  | cons c r =>
    by_cases hc : c = '|'
    · subst hc
      obtain ⟨t, ht⟩ := pstripL_head l '|' r hd (by decide)
      have := hb (by rw [ht]; exact fun hh => List.noConfusion hh)
      rw [ht] at this
      simp [startsBul] at this
    · simp only [isHeaderLineT, hd]
      cases c with
      | mk n hn =>
        by_cases h1 : (⟨n, hn⟩ : Char) = '|'
        · exact absurd h1 hc
        · simp [h1]

theorem tableScanAux_false_of_bullets (ls : List (List Char))
    (h : ∀ l ∈ ls, pstripL l ≠ [] → startsBul (pstripL l) = true) :
    tableScanAux ls = false := by
  induction ls with
  | nil => rfl
  | cons l rest ih =>
    unfold tableScanAux
    rw [isHeaderLineT_false_of_bullet l (h l (List.mem_cons_self l rest)),
      ih (fun x hx => h x (List.mem_cons_of_mem l hx))]
    rfl

theorem bulletLike_no_table (v : String) (h : bulletLike v = true) :
    is_markdown_table v = false := by
  unfold bulletLike at h
  rw [Bool.and_eq_true] at h
  obtain ⟨-, hall⟩ := h
  unfold is_markdown_table
  refine tableScanAux_false_of_bullets (linesOf v) ?_
  intro l hl hne
  have hmem : l ∈ (linesOf v).filter (fun l => !(pstripL l).isEmpty) := by
    rw [List.mem_filter]
    refine ⟨hl, ?_⟩
    simp [List.isEmpty_iff, hne]
  exact List.all_eq_true.mp hall l hmem

/-- A body that is both diagram-like and table-like. -/
def graphTableDoc : String := "graph\n| a |\n|---|---|\n"

/-- C5: the classification of `render_value` is an ordered chain — a
diagram-like body is classified DiagramSource even when it also passes the
table test (shown on a concrete overlapping body); a body classified Table
passed the table test and failed the diagram test; a body classified
BulletList failed the diagram test, fails the table test, and passes the
bullet test; a body failing all three tests is FreeText. -/
theorem claim5_chain :
    (∀ v, is_mermaid v = true → classify v = ContentKind.diagram)
    ∧ (is_mermaid graphTableDoc = true ∧ is_markdown_table graphTableDoc = true
        ∧ classify graphTableDoc = ContentKind.diagram)
    ∧ (∀ v, classify v = ContentKind.table →
        is_mermaid v = false ∧ is_markdown_table v = true)
    ∧ (∀ v, classify v = ContentKind.bulletList →
        is_mermaid v = false ∧ is_markdown_table v = false ∧ bulletLike v = true)
    ∧ (∀ v, is_mermaid v = false → is_markdown_table v = false →
        bulletLike v = false → classify v = ContentKind.freeText) := by
  refine ⟨?_, ⟨by decide, by decide, by decide⟩, ?_, ?_, ?_⟩
  · intro v h
    simp [classify, h]
  · intro v h
    unfold classify at h
    by_cases h1 : is_mermaid v = true
    · rw [if_pos h1] at h; cases h
    · rw [if_neg h1] at h
      have h1f : is_mermaid v = false := by
        cases hx : is_mermaid v
        · rfl
        · exact absurd hx h1
      by_cases h2 : v = ""
      · rw [if_pos h2] at h; cases h
      · rw [if_neg h2] at h
        by_cases h3 : (is_markdown_table v && recordsFlag v) = true
        · rw [Bool.and_eq_true] at h3
          exact ⟨h1f, h3.1⟩
        · rw [if_neg h3] at h
          by_cases h4 : bulletLike v = true
          · rw [if_pos h4] at h; cases h
          · rw [if_neg h4] at h; cases h
  · intro v h
    unfold classify at h
    by_cases h1 : is_mermaid v = true
    · rw [if_pos h1] at h; cases h
    · rw [if_neg h1] at h
      have h1f : is_mermaid v = false := by
        cases hx : is_mermaid v
        · rfl
        · exact absurd hx h1
      by_cases h2 : v = ""
      · rw [if_pos h2] at h; cases h
      · rw [if_neg h2] at h
        by_cases h3 : (is_markdown_table v && recordsFlag v) = true
        · rw [if_pos h3] at h; cases h
        · rw [if_neg h3] at h
          by_cases h4 : bulletLike v = true
          · exact ⟨h1f, bulletLike_no_table v h4, h4⟩
          · rw [if_neg h4] at h; cases h
  · intro v h1 h2 h3
    unfold classify
    rw [if_neg (by rw [h1]; exact fun hh => Bool.noConfusion hh)]
    by_cases hv : v = ""
    · rw [if_pos hv]
    · rw [if_neg hv]
      rw [show (is_markdown_table v && recordsFlag v) = false by rw [h2]; rfl]
      rw [if_neg (by exact fun hh => Bool.noConfusion hh)]
      rw [if_neg (by rw [h3]; exact fun hh => Bool.noConfusion hh)]

theorem claim5_chain_witness :
    classify "graph TD" = ContentKind.diagram :=
  claim5_chain.1 "graph TD" (by decide)
